import Mathlib

set_option maxHeartbeats 1600000

open scoped List

/-! Shallow embedding of `app.py` (steam-text-search): the similarity-ranking
engine.  Scalars stored in the database and ANN distances are modelled as
rationals; values produced by `np.linalg.norm` (square roots) live in `ℝ`, and
the IEEE special values that numpy division produces instead of raising are
modelled by `NpFloat`. -/

/-- A numpy floating-point result: a (real) value or one of the IEEE special
values that numpy produces instead of raising (division by zero warns and
yields `nan` or a signed infinity). -/
inductive NpFloat : Type
  | nan : NpFloat
  | inf : NpFloat
  | neginf : NpFloat
  | val : ℝ → NpFloat

open Classical in
/-- IEEE division as numpy computes it for finite operands: `0 / 0` is `nan`,
`x / 0` for `x ≠ 0` a signed infinity; elsewhere ordinary division. -/
noncomputable def npDiv (x y : ℝ) : NpFloat :=
  if y = 0 then (if x = 0 then .nan else if 0 < x then .inf else .neginf)
  else .val (x / y)

/-- Python/IEEE `<` on numpy float values: `nan` compares false with
everything. -/
def NpFloat.pyLt : NpFloat → NpFloat → Prop
  | .val x, .val y => x < y
  | .neginf, .val _ => True
  | .neginf, .inf => True
  | .val _, .inf => True
  | _, _ => False

/-- Python/IEEE `==` on numpy float values: `nan` is not equal to itself. -/
def NpFloat.pyEq : NpFloat → NpFloat → Prop
  | .val x, .val y => x = y
  | .inf, .inf => True
  | .neginf, .neginf => True
  | _, _ => False

/-- `np.dot` on equal-length vectors: the sum of pointwise products. -/
def np_dot (a b : List ℚ) : ℚ := (List.zipWith (· * ·) a b).sum

/-- The sum of the squares of the entries of a vector. -/
def normSq (a : List ℚ) : ℚ := (a.map fun x => x * x).sum

/-- `np.linalg.norm`: the euclidean norm, the square root of `normSq`. -/
noncomputable def np_norm (a : List ℚ) : ℝ := Real.sqrt ((normSq a : ℚ) : ℝ)

/-- `cosine_similarity` (app.py line 139):
`np.dot(a, b) / (np.linalg.norm(a) * np.linalg.norm(b))`.  The source has no
zero-norm guard: the division is plain IEEE division. -/
noncomputable def cosine_similarity (a b : List ℚ) : NpFloat :=
  npDiv ((np_dot a b : ℚ) : ℝ) (np_norm a * np_norm b)

/-- Result of `mean_pooling`: a vector or — for empty input — the scalar `nan`
that `np.sum([], axis=0) / 0` evaluates to (numpy warns, no exception). -/
inductive MeanResult : Type
  | nanScalar : MeanResult
  | vec : List ℚ → MeanResult
deriving DecidableEq

/-- `mean_pooling` (app.py line 142): `np.sum(embeddings, axis=0) / len(embeddings)`.
On a non-empty list of equal-length vectors `np.sum(_, axis=0)` is the
pointwise sum (a fold of `zipWith (+)`) and the division is pointwise.  On the
empty list `np.sum([], axis=0)` is the scalar `0.0`, and `0.0 / 0` the scalar
`nan`. -/
def mean_pooling (embeddings : List (List ℚ)) : MeanResult :=
  match embeddings with
  | [] => .nanScalar
  | v :: rest =>
    .vec ((rest.foldl (fun acc w => List.zipWith (· + ·) acc w) v).map
      fun x => x / (embeddings.length : ℚ))

open Classical in
/-- Python `max` over a list of floats: keep the current maximum, replacing it
when a later item compares strictly greater (IEEE `>`).  Python raises
`ValueError` on an empty sequence; the empty case is modelled as `nan`. -/
noncomputable def pyMax : List NpFloat → NpFloat
  | [] => .nan
  | x :: xs => xs.foldl (fun acc v => if NpFloat.pyLt acc v then v else acc) x

/-- `compare_all_embeddings_take_max` (app.py line 145): the maximum cosine
similarity of the candidate's embeddings against the query. -/
noncomputable def compare_all_embeddings_take_max (embeddings : List (List ℚ))
    (query_embed : List ℚ) : NpFloat :=
  pyMax (embeddings.map fun embedding => cosine_similarity embedding query_embed)

/-- `cosine_similarity` lifted to `mean_pooling` results: a degenerate scalar
`nan` operand contaminates the result (numpy propagates `nan` through the dot
product and the norms), modelled as a `nan` score. -/
noncomputable def cosineM : MeanResult → MeanResult → NpFloat
  | .vec a, .vec b => cosine_similarity a b
  | _, _ => .nan

/-- `compare_all_embeddings_take_max` lifted to a `mean_pooling` query, as
called in `search_similar` (app.py line 269). -/
noncomputable def compare_all_M (embeddings : List (List ℚ)) (query : MeanResult) : NpFloat :=
  pyMax (embeddings.map fun embedding => cosineM (.vec embedding) query)

/-- The result dicts produced by the search functions
(`{'appid', 'name', 'match_type', 'score'}`), generic in the score type: the
index path produces rational scores (`1.0 - distance`), the exhaustive path
produces `NpFloat` cosine scores. -/
structure ScoredMatch (S : Type) : Type where
  appid : ℤ
  name : String
  match_type : String
  score : S
deriving DecidableEq

/-- A heap entry `(item['score'], random_tiebreak, item)` as pushed by
`add_to_heap` (app.py line 152). -/
abbrev HeapEntry : Type := NpFloat × ℚ × ScoredMatch NpFloat

/-- Python `<` on heap-entry tuples: lexicographic, comparing scores by IEEE
`<` and `==`, then the tiebreak rationals.  (With equal score and tiebreak
Python would go on to compare the dicts; the random tiebreaks make that
unreachable, and it is modelled as "not less".) -/
def entryLt (e f : HeapEntry) : Prop :=
  NpFloat.pyLt e.1 f.1 ∨ (NpFloat.pyEq e.1 f.1 ∧ e.2.1 < f.2.1)

/-- `¬ entryLt f e`: entry `e` may sit at or before `f` in the min-heap
order. -/
def entryLe (e f : HeapEntry) : Prop := ¬ entryLt f e

noncomputable instance : DecidableRel entryLe := fun _ _ => Classical.dec _

/-- `add_to_heap` (app.py line 149): push `(item['score'], random.random(), item)`
and pop the minimum when the heap exceeds `max_length`.  The `heapq` heap is
modelled by its multiset, kept as a list sorted ascending in the tuple order
(`heappush` inserts, `heappop` removes the minimum, i.e. the head);
`random.random()` is modelled by the explicit `tie` argument. -/
noncomputable def add_to_heap (heap : List HeapEntry) (item_to_add : ScoredMatch NpFloat)
    (max_length : ℕ) (tie : ℚ) : List HeapEntry :=
  let pushed := List.orderedInsert entryLe (item_to_add.score, tie, item_to_add) heap
  if max_length < pushed.length then pushed.tail else pushed

/-- The comparator of `matches.sort(key=lambda x: x[0], reverse=True)` on heap
entries: `e` goes before `f` exactly when `e`'s score is not below `f`'s
(descending by score, stable, ties keeping their original order). -/
def entryGe (e f : HeapEntry) : Prop := ¬ NpFloat.pyLt e.1 f.1

noncomputable instance : DecidableRel entryGe := fun _ _ => Classical.dec _

/-- app.py lines 196-202 (and 306-312): sort the heap's tuples by score
descending and strip each tuple to its payload dict. -/
noncomputable def sort_and_strip (heap : List HeapEntry) : List (ScoredMatch NpFloat) :=
  (List.insertionSort entryGe heap).map fun e => e.2.2

/-- The metadata store (`sqlite_helpers`, an external collaborator the engine
only reads): paginated description embeddings, per-entity description and
review embeddings (the review map keyed by review id), the appids owning
review embeddings, and display names. -/
structure Db : Type where
  descPages : List (List (ℤ × List (List ℚ)))
  descFor : ℤ → List (List ℚ)
  reviewAppids : List ℤ
  reviews : ℤ → List (ℤ × List (List ℚ))
  names : ℤ → String

/-- The flattening `[e for review_id in all_review_embeddings for e in
all_review_embeddings[review_id]]` (app.py lines 183, 282, 292, 354). -/
def reviewFlat (db : Db) (appid : ℤ) : List (List ℚ) :=
  ((db.reviews appid).map fun p => p.2).flatten

/-- Modelled from the spec: the ANN index oracle (spec §6) — "given a query
vector and k, returns up to k (candidate id, distance) pairs, sorted by
ascending distance".  `hnswlib`'s `knn_query` returns a row of candidate
appids and a row of distances; the handle is immutable, so it is a pure
function of the query. -/
structure AnnIndex : Type where
  knn : List ℚ → ℕ → List ℤ × List ℚ

/-- One scan state of the exhaustive path: the heap so far and the number of
`add_to_heap` calls made (the position in the modelled `random.random()`
stream). -/
abbrev ScanState : Type := List HeapEntry × ℕ

/-- The description-scan loop of `search` (app.py lines 164-175): one
`add_to_heap` per entity of each page, scored by max-over-set. -/
noncomputable def search_desc_stage (db : Db) (query_embed : List ℚ) (max_results : ℕ)
    (ties : ℕ → ℚ) (init : ScanState) : ScanState :=
  db.descPages.foldl (fun st page =>
    page.foldl (fun st pr =>
      (add_to_heap st.1 ⟨pr.1, db.names pr.1, "description",
        compare_all_embeddings_take_max pr.2 query_embed⟩ max_results (ties st.2),
       st.2 + 1)) st) init

/-- The review-scan loop of `search` (app.py lines 178-194): one `add_to_heap`
per review-owning entity, scored by the cosine of its mean review embedding. -/
noncomputable def search_review_stage (db : Db) (query_embed : List ℚ) (max_results : ℕ)
    (ties : ℕ → ℚ) (init : ScanState) : ScanState :=
  db.reviewAppids.foldl (fun st appid =>
    (add_to_heap st.1 ⟨appid, db.names appid, "review",
      cosineM (mean_pooling (reviewFlat db appid)) (.vec query_embed)⟩ max_results
      (ties st.2), st.2 + 1)) init

/-- `search` (app.py line 159): the exhaustive path.  Runs the description and
review scan loops for the requested types over one shared heap, then sorts by
score descending and strips the tuples.  `ties` models the `random.random()`
stream consumed by `add_to_heap`. -/
noncomputable def search (db : Db) (query_embed : List ℚ) (query_for_type : String)
    (max_results : ℕ) (ties : ℕ → ℚ) : List (ScoredMatch NpFloat) :=
  let st1 : ScanState :=
    if query_for_type = "all" ∨ query_for_type = "description" then
      search_desc_stage db query_embed max_results ties ([], 0)
    else ([], 0)
  let st2 : ScanState :=
    if query_for_type = "all" ∨ query_for_type = "review" then
      search_review_stage db query_embed max_results ties st1
    else st1
  sort_and_strip st2.1

/-- The description-scan loop of `search_similar` (app.py lines 264-277):
like `search`'s but skipping the query entity and scoring against its mean
description embedding. -/
noncomputable def search_similar_desc_stage (db : Db) (query_appid : ℤ)
    (query_embed : MeanResult) (max_results : ℕ) (ties : ℕ → ℚ) (init : ScanState) :
    ScanState :=
  db.descPages.foldl (fun st page =>
    page.foldl (fun st pr =>
      if pr.1 = query_appid then st
      else
        (add_to_heap st.1 ⟨pr.1, db.names pr.1, "description",
          compare_all_M pr.2 query_embed⟩ max_results (ties st.2), st.2 + 1)) st) init

/-- The review-scan loop of `search_similar` (app.py lines 285-304): likewise
with the query entity's mean review embedding. -/
noncomputable def search_similar_review_stage (db : Db) (query_appid : ℤ)
    (query_embed : MeanResult) (max_results : ℕ) (ties : ℕ → ℚ) (init : ScanState) :
    ScanState :=
  db.reviewAppids.foldl (fun st current_appid =>
    if current_appid = query_appid then st
    else
      (add_to_heap st.1 ⟨current_appid, db.names current_appid, "review",
        cosineM (mean_pooling (reviewFlat db current_appid)) query_embed⟩ max_results
        (ties st.2), st.2 + 1)) init

/-- `search_similar` (app.py line 255): the exhaustive entity-similarity path.
Each requested type aggregates the query entity's vectors by `mean_pooling`
and scans all candidates of that type, skipping the query entity itself, over
one shared heap; finally sort descending and strip. -/
noncomputable def search_similar (db : Db) (query_appid : ℤ) (query_for_type : String)
    (max_results : ℕ) (ties : ℕ → ℚ) : List (ScoredMatch NpFloat) :=
  let st1 : ScanState :=
    if query_for_type = "all" ∨ query_for_type = "description" then
      search_similar_desc_stage db query_appid (mean_pooling (db.descFor query_appid))
        max_results ties ([], 0)
    else ([], 0)
  let st2 : ScanState :=
    if query_for_type = "all" ∨ query_for_type = "review" then
      search_similar_review_stage db query_appid
        (mean_pooling (reviewFlat db query_appid)) max_results ties st1
    else st1
  sort_and_strip st2.1

/-- The match list built from one `knn_query` response in `index_search`
(app.py lines 212-227 and 233-248): zip appids with distances and score each
candidate as `1.0 - distance`. -/
def knn_matches (idx : AnnIndex) (db : Db) (query : List ℚ) (k : ℕ) (mt : String) :
    List (ScoredMatch ℚ) :=
  ((idx.knn query k).1.zip (idx.knn query k).2).map fun p =>
    ⟨p.1, db.names p.1, mt, 1 - p.2⟩

/-- The merged per-type match list of `index_search` before its final sort. -/
def index_search_merged (description_index review_index : AnnIndex) (db : Db)
    (query : List ℚ) (query_for_type : String) (max_results : ℕ) : List (ScoredMatch ℚ) :=
  (if query_for_type = "all" ∨ query_for_type = "description" then
    knn_matches description_index db query max_results "description"
  else []) ++
  (if query_for_type = "all" ∨ query_for_type = "review" then
    knn_matches review_index db query max_results "review"
  else [])

/-- The comparator of `sorted(matches, key=lambda x: x['score'], reverse=True)`
on rational-scored matches: descending by score, stable. -/
def matchGe (a b : ScoredMatch ℚ) : Prop := b.score ≤ a.score

instance : DecidableRel matchGe := fun a b => inferInstanceAs (Decidable (b.score ≤ a.score))

/-- `index_search` (app.py line 204): query each requested per-type ANN index
for `max_results` neighbours, convert distances to scores, merge, sort by
score descending (a stable sort) and truncate to `max_results`. -/
def index_search (description_index review_index : AnnIndex) (db : Db) (query : List ℚ)
    (query_for_type : String) (max_results : ℕ) : List (ScoredMatch ℚ) :=
  (List.insertionSort matchGe
    (index_search_merged description_index review_index db query query_for_type
      max_results)).take max_results

/-- The filtered match list of one `knn_query` response in
`index_search_similar` (app.py lines 332-345 and 362-375): the query entity
itself is skipped (`if appid == query_appid: continue`). -/
def similar_knn_matches (idx : AnnIndex) (db : Db) (query : List ℚ) (query_appid : ℤ)
    (k : ℕ) (mt : String) : List (ScoredMatch ℚ) :=
  (((idx.knn query k).1.zip (idx.knn query k).2).filter fun p =>
    p.1 != query_appid).map fun p => ⟨p.1, db.names p.1, mt, 1 - p.2⟩

/-- `index_search_similar` (app.py line 314): aggregate the query entity's
vectors per requested type with `mean_pooling`, query the per-type ANN index
for `max_results + 1` neighbours ("Add 1 to max results to account for the
query returning the app we're searching for"), drop the query entity, merge,
sort descending, truncate to `max_results`.  An entity with no vectors of a
requested type makes `mean_pooling` return the scalar `nan`; the index has a
fixed dimension (spec §3), so `knn_query` rejects that degenerate query, which
surfaces as an error — the source has no skip for this case. -/
def index_search_similar (description_index review_index : AnnIndex) (db : Db)
    (query_appid : ℤ) (query_for_type : String) (max_results : ℕ) :
    Except String (List (ScoredMatch ℚ)) :=
  let d : Except String (List (ScoredMatch ℚ)) :=
    if query_for_type = "all" ∨ query_for_type = "description" then
      match mean_pooling (db.descFor query_appid) with
      | .nanScalar => Except.error "knn_query: query dimension mismatch"
      | .vec query_embed =>
        Except.ok (similar_knn_matches description_index db query_embed query_appid
          (max_results + 1) "description")
    else Except.ok []
  let r : Except String (List (ScoredMatch ℚ)) :=
    if query_for_type = "all" ∨ query_for_type = "review" then
      match mean_pooling (reviewFlat db query_appid) with
      | .nanScalar => Except.error "knn_query: query dimension mismatch"
      | .vec query_embed =>
        Except.ok (similar_knn_matches review_index db query_embed query_appid
          (max_results + 1) "review")
    else Except.ok []
  match d, r with
  | .ok m1, .ok m2 => Except.ok ((List.insertionSort matchGe (m1 ++ m2)).take max_results)
  | .error e, _ => Except.error e
  | .ok _, .error e => Except.error e

/-- The `num_results` computation of the HTTP handlers (app.py lines 69-71 and
111-113): default 10 when the parameter is absent, then clamp into
`[0, 100]` by `max(0, min(num_results, 100))`. -/
def clamp_num_results (raw : Option ℤ) : ℤ :=
  max 0 (min (match raw with | none => 10 | some n => n) 100)

/-- An entry whose score slot is an ordinary (non-`nan`, finite) float. -/
def ValScored (e : HeapEntry) : Prop := ∃ x : ℝ, e.1 = NpFloat.val x

/-- The entry `(item['score'], tiebreak, item)` of each offered pair. -/
def entriesOf (offers : List (ScoredMatch NpFloat × ℚ)) : List HeapEntry :=
  offers.map fun p => (p.1.score, p.2, p.1)

/-- A whole sequence of `add_to_heap` calls with capacity `K`, starting from
the empty heap (as the scan loops of `search` and `search_similar` do). -/
noncomputable def run_add_to_heap (K : ℕ) (offers : List (ScoredMatch NpFloat × ℚ)) :
    List HeapEntry :=
  offers.foldl (fun h p => add_to_heap h p.1 K p.2) []

instance : IsTotal (ScoredMatch ℚ) matchGe := ⟨fun a b => le_total b.score a.score⟩

instance : IsTrans (ScoredMatch ℚ) matchGe := ⟨fun _ _ _ h1 h2 => le_trans h2 h1⟩

/-- Ascending-distance order on `(appid, distance)` pairs. -/
def distLe (a b : ℤ × ℚ) : Prop := a.2 ≤ b.2

instance : DecidableRel distLe := fun a b => inferInstanceAs (Decidable (a.2 ≤ b.2))

/-- Modelled from the spec: an exact (perfect-recall) ANN oracle holding one
stored vector per entity (spec §3: "description index stores one vector per
entity"), over unit-norm vectors in `hnswlib`'s cosine space: the distance of
a stored unit vector `v` to a unit query `q` is `1 - dot(v, q)`, and the
oracle returns up to `k` candidates sorted by ascending distance (spec §6). -/
def exactIndex (stored : List (ℤ × List ℚ)) : AnnIndex where
  knn := fun q k =>
    let scored := stored.map fun p => (p.1, 1 - np_dot p.2 q)
    let sorted := List.insertionSort distLe scored
    ((sorted.take k).map fun p => p.1, (sorted.take k).map fun p => p.2)

/-- Fixture: a description index answering every query with entity 7. -/
def c1_desc_idx : AnnIndex := ⟨fun _ _ => ([7], [1/10])⟩

/-- Fixture: a review index answering every query with entity 7. -/
def c1_rev_idx : AnnIndex := ⟨fun _ _ => ([7], [1/5])⟩

/-- Fixture: a store whose every entity is named "g". -/
def c1_db : Db := ⟨[], fun _ => [], [], fun _ => [], fun _ => "g"⟩

/-- Fixture: three offers with distinct `val` scores. -/
def c2_offers : List (ScoredMatch NpFloat × ℚ) :=
  [(⟨1, "a", "description", NpFloat.val 1⟩, 1/2),
   (⟨2, "b", "description", NpFloat.val 3⟩, 1/3),
   (⟨3, "c", "description", NpFloat.val 2⟩, 1/4)]

/-- Fixture: a store where entities 1 and 2 both have description and review
embeddings. -/
def c3_db : Db :=
  ⟨[[(1, [[1]]), (2, [[1]])]], fun _ => [[1]], [1, 2], fun _ => [(0, [[1]])],
    fun _ => "g"⟩

/-- Fixture: an index returning entities 1 and 2 for every query. -/
def c3_idx : AnnIndex := ⟨fun _ _ => ([1, 2], [0, 1/2])⟩

/-- Fixture: a store for the merge-sort-truncate witness. -/
def c4_db : Db :=
  ⟨[[(1, [[1]]), (2, [[1]])]], fun _ => [[1]], [1, 2], fun _ => [(0, [[1]])],
    fun _ => "g"⟩

/-- Fixture: an index for the merge-sort-truncate witness. -/
def c4_idx : AnnIndex := ⟨fun _ _ => ([1, 2], [0, 1/2])⟩

/-- Fixture: a store where entity 42 has no embeddings at all. -/
def c7_db : Db := ⟨[], fun _ => [], [], fun _ => [], fun _ => "g"⟩

/-- Fixture: an index answering every query with nothing. -/
def c7_idx : AnnIndex := ⟨fun _ _ => ([], [])⟩

/-- Fixture vectors: five unit-norm 3-dimensional embeddings (spec §8's small
dataset). -/
def c8_v1 : List ℚ := [1, 0, 0]

/-- Fixture vector 2. -/
def c8_v2 : List ℚ := [0, 1, 0]

/-- Fixture vector 3. -/
def c8_v3 : List ℚ := [3/5, 4/5, 0]

/-- Fixture vector 4. -/
def c8_v4 : List ℚ := [4/5, 3/5, 0]

/-- Fixture vector 5. -/
def c8_v5 : List ℚ := [5/13, 12/13, 0]

/-- Fixture: the unit query vector. -/
def c8_q : List ℚ := [1, 0, 0]

/-- Fixture: the five entities, each with one description embedding, in one
page. -/
def c8_db : Db :=
  ⟨[[(1, [c8_v1]), (4, [c8_v4]), (3, [c8_v3]), (5, [c8_v5]), (2, [c8_v2])]],
    fun _ => [], [], fun _ => [], fun _ => "g"⟩

/-- Fixture: the same five entities as stored in the exact ANN oracle. -/
def c8_stored : List (ℤ × List ℚ) :=
  [(1, c8_v1), (2, c8_v2), (3, c8_v3), (4, c8_v4), (5, c8_v5)]

/-- Fixture: an index used for the determinism witness. -/
def c9_idx : AnnIndex := ⟨fun _ _ => ([3, 1], [0, 1/4])⟩

/-- Fixture: a store used for the determinism witness. -/
def c9_db : Db := ⟨[], fun _ => [], [], fun _ => [], fun _ => "g"⟩

section OrderLemmas

/-- `pyLt` on plain values is the real order. -/
theorem pyLt_val {x y : ℝ} : NpFloat.pyLt (.val x) (.val y) ↔ x < y := Iff.rfl

/-- `pyEq` on plain values is equality. -/
theorem pyEq_val {x y : ℝ} : NpFloat.pyEq (.val x) (.val y) ↔ x = y := Iff.rfl

/-- IEEE `<` never holds in both directions. -/
theorem pyLt_asymm : ∀ a b : NpFloat, NpFloat.pyLt a b → ¬ NpFloat.pyLt b a := by
  intro a b hab hba
  cases a <;> cases b <;> simp [NpFloat.pyLt] at hab hba
  exact absurd (hab.trans hba) (lt_irrefl _)

/-- IEEE `<` excludes IEEE `==` in the other direction. -/
theorem pyLt_not_pyEq : ∀ a b : NpFloat, NpFloat.pyLt a b → ¬ NpFloat.pyEq b a := by
  intro a b hab heq
  cases a <;> cases b <;> simp [NpFloat.pyLt, NpFloat.pyEq] at hab heq
  exact absurd hab (by simp [heq])

/-- The heap-entry tuple order is asymmetric. -/
theorem entryLt_asymm (e f : HeapEntry) : entryLt e f → ¬ entryLt f e := by
  rintro (h | ⟨he, ht⟩) (h2 | ⟨he2, ht2⟩)
  · exact pyLt_asymm _ _ h h2
  · exact pyLt_not_pyEq _ _ h he2
  · exact pyLt_not_pyEq _ _ h2 he
  · exact absurd (ht.trans ht2) (lt_irrefl _)

/-- `entryLe` is total (from the asymmetry of the strict order). -/
theorem entryLe_total (e f : HeapEntry) : entryLe e f ∨ entryLe f e := by
  by_cases h : entryLt f e
  · exact Or.inr fun h2 => entryLt_asymm _ _ h2 h
  · exact Or.inl h

/-- The strict tuple order on `val`-scored entries, spelt out. -/
theorem entryLt_val {x y : ℝ} {t s : ℚ} {m n : ScoredMatch NpFloat} :
    entryLt (.val x, t, m) (.val y, s, n) ↔ x < y ∨ (x = y ∧ t < s) := by
  simp [entryLt, pyLt_val, pyEq_val]

/-- `entryLe` is transitive among `val`-scored entries. -/
theorem entryLe_trans_val (e f g : HeapEntry) (he : ValScored e) (hf : ValScored f)
    (hg : ValScored g) (h1 : entryLe e f) (h2 : entryLe f g) : entryLe e g := by
  obtain ⟨x, hx⟩ := he; obtain ⟨y, hy⟩ := hf; obtain ⟨z, hz⟩ := hg
  obtain ⟨e1, e2, e3⟩ := e; obtain ⟨f1, f2, f3⟩ := f; obtain ⟨g1, g2, g3⟩ := g
  simp only at hx hy hz
  subst hx hy hz
  simp only [entryLe, entryLt_val, not_or, not_and, not_lt] at h1 h2 ⊢
  obtain ⟨hxy, hef⟩ := h1
  obtain ⟨hyz, hfg⟩ := h2
  refine ⟨by linarith, ?_⟩
  intro hzx
  have hyx : y = x := le_antisymm (by linarith) hxy
  have hzy : z = y := by linarith
  exact le_trans (hef hyx) (hfg hzy)

/-- Not-strictly-below is transitive among `val` scores. -/
theorem pyGe_trans_val {x y z : ℝ} (h1 : ¬ NpFloat.pyLt (.val x) (.val y))
    (h2 : ¬ NpFloat.pyLt (.val y) (.val z)) : ¬ NpFloat.pyLt (.val x) (.val z) := by
  simp only [pyLt_val, not_lt] at h1 h2 ⊢
  linarith

end OrderLemmas

section SortLemmas

variable {α : Type}

/-- `orderedInsert` preserves sortedness for a relation that is total and is
transitive among elements satisfying `P`. -/
theorem sorted_orderedInsert_of (r : α → α → Prop) [DecidableRel r] (P : α → Prop)
    (htot : ∀ a b, r a b ∨ r b a)
    (htrans : ∀ a b c, P a → P b → P c → r a b → r b c → r a c)
    (a : α) (l : List α) (ha : P a) (hl : ∀ e ∈ l, P e) (hs : l.Sorted r) :
    (List.orderedInsert r a l).Sorted r := by
  induction l with
  | nil => simp [List.Sorted]
  | cons b l ih =>
    rw [List.orderedInsert]
    by_cases hab : r a b
    · rw [if_pos hab]
      refine List.sorted_cons.2 ⟨?_, hs⟩
      intro c hc
      rcases List.mem_cons.1 hc with hc | hc
      · exact hc ▸ hab
      · exact htrans a b c ha (hl b (by simp)) (hl c (by simp [hc]))
          hab (List.rel_of_sorted_cons hs c hc)
    · rw [if_neg hab]
      refine List.sorted_cons.2 ⟨?_, ih (fun e he => hl e (by simp [he]))
        (List.sorted_cons.1 hs).2⟩
      intro c hc
      rcases (List.mem_orderedInsert r).1 hc with hc | hc
      · subst hc
        exact (htot _ b).resolve_left hab
      · exact List.rel_of_sorted_cons hs c hc

/-- `insertionSort` sorts, for a relation total everywhere and transitive
among elements satisfying `P`. -/
theorem sorted_insertionSort_of (r : α → α → Prop) [DecidableRel r] (P : α → Prop)
    (htot : ∀ a b, r a b ∨ r b a)
    (htrans : ∀ a b c, P a → P b → P c → r a b → r b c → r a c)
    (l : List α) (hl : ∀ e ∈ l, P e) : (List.insertionSort r l).Sorted r := by
  induction l with
  | nil => simp [List.Sorted]
  | cons a l ih =>
    rw [List.insertionSort]
    refine sorted_orderedInsert_of r P htot htrans a _ (hl a (by simp)) ?_
      (ih fun e he => hl e (by simp [he]))
    intro e he
    exact hl e (by simp [(List.perm_insertionSort r l).mem_iff.1 he])

/-- Inserting an element the filter rejects does not change the filtered
list. -/
theorem filter_orderedInsert_neg (r : α → α → Prop) [DecidableRel r] (p : α → Bool)
    (a : α) (l : List α) (ha : p a = false) :
    (List.orderedInsert r a l).filter p = l.filter p := by
  induction l with
  | nil => simp [ha]
  | cons b l ih =>
    rw [List.orderedInsert]
    by_cases hab : r a b
    · rw [if_pos hab, List.filter_cons, ha]
      simp
    · rw [if_neg hab]
      simp only [List.filter_cons, ih]

/-- Inserting an element the filter keeps, when it precedes every kept element
of the list, prepends it to the filtered list. -/
theorem filter_orderedInsert_pos (r : α → α → Prop) [DecidableRel r] (p : α → Bool)
    (a : α) (l : List α) (ha : p a = true) (h : ∀ b ∈ l, p b = true → r a b) :
    (List.orderedInsert r a l).filter p = a :: l.filter p := by
  induction l with
  | nil => simp [ha]
  | cons b l ih =>
    rw [List.orderedInsert]
    by_cases hab : r a b
    · rw [if_pos hab]
      simp [ha]
    · rw [if_neg hab, List.filter_cons]
      have hpb : p b = false := by
        cases hpb : p b
        · rfl
        · exact absurd (h b (by simp) hpb) hab
      simp only [List.filter_cons, hpb, Bool.false_eq_true, if_false]
      exact ih fun c hc hpc => h c (by simp [hc]) hpc

/-- Stability of `insertionSort`: elements of one mutually-tied class (every
two kept elements are related both ways) keep their original relative order. -/
theorem filter_insertionSort_stable (r : α → α → Prop) [DecidableRel r] (p : α → Bool)
    (l : List α) (hpr : ∀ a b, p a = true → p b = true → r a b) :
    (List.insertionSort r l).filter p = l.filter p := by
  induction l with
  | nil => rfl
  | cons a l ih =>
    rw [List.insertionSort]
    cases hpa : p a
    · rw [filter_orderedInsert_neg r p a _ hpa, List.filter_cons, hpa]
      simp [ih]
    · rw [filter_orderedInsert_pos r p a _ hpa
        (fun b _ hpb => hpr a b hpa hpb), List.filter_cons, hpa]
      simp [ih]

/-- A filtered prefix is a prefix of the filtered list. -/
theorem filter_take_eq_take_filter (p : α → Bool) :
    ∀ (l : List α) (k : ℕ), ∃ n, (l.take k).filter p = (l.filter p).take n := by
  intro l
  induction l with
  | nil => intro k; exact ⟨0, by simp⟩
  | cons a l ih =>
    intro k
    cases k with
    | zero => exact ⟨0, by simp⟩
    | succ k =>
      obtain ⟨n, hn⟩ := ih k
      cases hpa : p a
      · exact ⟨n, by simp [List.filter_cons, hpa, hn]⟩
      · exact ⟨n + 1, by simp [List.filter_cons, hpa, hn]⟩

end SortLemmas

section HeapLemmas

/-- An element of the heap after `add_to_heap` is the pushed entry or an old
element. -/
theorem mem_add_to_heap {heap : List HeapEntry} {item : ScoredMatch NpFloat} {K : ℕ}
    {tie : ℚ} {e : HeapEntry} (he : e ∈ add_to_heap heap item K tie) :
    e = (item.score, tie, item) ∨ e ∈ heap := by
  unfold add_to_heap at he
  simp only at he
  by_cases h : K < (List.orderedInsert entryLe (item.score, tie, item) heap).length
  · rw [if_pos h] at he
    have he2 := List.mem_of_mem_tail he
    exact (List.mem_orderedInsert entryLe).1 he2
  · rw [if_neg h] at he
    exact (List.mem_orderedInsert entryLe).1 he

/-- Every entry built from an offered pair is `val`-scored (given the offered
scores are). -/
theorem entriesOf_val {offers : List (ScoredMatch NpFloat × ℚ)}
    (hval : ∀ p ∈ offers, ∃ x : ℝ, p.1.score = NpFloat.val x) :
    ∀ e ∈ entriesOf offers, ValScored e := by
  intro e he
  obtain ⟨q, hq, rfl⟩ := List.mem_map.1 he
  exact hval q hq

/-- `entryLe m e` gives in particular that `e`'s score is not below `m`'s. -/
theorem not_pyLt_of_entryLe {m e : HeapEntry} (h : entryLe m e) :
    ¬ NpFloat.pyLt e.1 m.1 :=
  fun hp => h (Or.inl hp)

/-- "not strictly below" chains through `val` scores. -/
theorem not_pyLt_trans {a b c : NpFloat} (ha : ∃ x : ℝ, a = NpFloat.val x)
    (hb : ∃ x : ℝ, b = NpFloat.val x) (hc : ∃ x : ℝ, c = NpFloat.val x)
    (h1 : ¬ NpFloat.pyLt a b) (h2 : ¬ NpFloat.pyLt b c) : ¬ NpFloat.pyLt a c := by
  obtain ⟨x, rfl⟩ := ha; obtain ⟨y, rfl⟩ := hb; obtain ⟨z, rfl⟩ := hc
  exact pyGe_trans_val h1 h2

/-- One fold step of `run_add_to_heap`. -/
theorem run_add_to_heap_append_singleton (K : ℕ)
    (offers : List (ScoredMatch NpFloat × ℚ)) (p : ScoredMatch NpFloat × ℚ) :
    run_add_to_heap K (offers ++ [p]) =
      add_to_heap (run_add_to_heap K offers) p.1 K p.2 := by
  unfold run_add_to_heap
  rw [List.foldl_append]
  rfl

/-- Unfolding equation for `add_to_heap`. -/
theorem add_to_heap_eq (heap : List HeapEntry) (item : ScoredMatch NpFloat) (K : ℕ)
    (tie : ℚ) :
    add_to_heap heap item K tie =
      if K < (List.orderedInsert entryLe (item.score, tie, item) heap).length
      then (List.orderedInsert entryLe (item.score, tie, item) heap).tail
      else List.orderedInsert entryLe (item.score, tie, item) heap := rfl

/-- The bounded-collector invariant: after any sequence of offers with proper
(`val`) scores, the heap is sorted ascending in the tuple order, holds exactly
`min K n` entries, and together with the evicted entries is a permutation of
all offered entries, every evicted entry scoring no higher than every retained
one. -/
theorem run_add_to_heap_invariant (K : ℕ) (offers : List (ScoredMatch NpFloat × ℚ))
    (hval : ∀ p ∈ offers, ∃ x : ℝ, p.1.score = NpFloat.val x) :
    (run_add_to_heap K offers).Sorted entryLe ∧
    (run_add_to_heap K offers).length = min K offers.length ∧
    ∃ evicted : List HeapEntry,
      entriesOf offers ~ run_add_to_heap K offers ++ evicted ∧
      ∀ f ∈ evicted, ∀ e ∈ run_add_to_heap K offers, ¬ NpFloat.pyLt e.1 f.1 := by
  induction offers using List.reverseRecOn with
  | nil =>
    refine ⟨by simp [run_add_to_heap, List.Sorted], by simp [run_add_to_heap], [], ?_, ?_⟩
    · simp [run_add_to_heap, entriesOf]
    · simp
  | append_singleton offers p ih =>
    have hval0 : ∀ q ∈ offers, ∃ x : ℝ, q.1.score = NpFloat.val x :=
      fun q hq => hval q (List.mem_append_left _ hq)
    obtain ⟨hs, hlen, ev, hperm, hdom⟩ := ih hval0
    set H := run_add_to_heap K offers with hH
    have hHval : ∀ e ∈ H, ValScored e := fun e he =>
      entriesOf_val hval0 e (hperm.mem_iff.2 (List.mem_append_left _ he))
    have hevval : ∀ f ∈ ev, ValScored f := fun f hf =>
      entriesOf_val hval0 f (hperm.mem_iff.2 (List.mem_append_right _ hf))
    set e0 : HeapEntry := (p.1.score, p.2, p.1) with he0
    have he0val : ValScored e0 := hval p (List.mem_append_right _ (by simp))
    set pushed := List.orderedInsert entryLe e0 H with hpushed
    have hstep : run_add_to_heap K (offers ++ [p]) =
        if K < pushed.length then pushed.tail else pushed := by
      rw [run_add_to_heap_append_singleton K offers p, add_to_heap_eq, ← hH, ← he0,
        ← hpushed]
    have hsp : pushed.Sorted entryLe :=
      sorted_orderedInsert_of entryLe ValScored entryLe_total entryLe_trans_val
        e0 H he0val hHval hs
    have hlp : pushed.length = H.length + 1 := List.orderedInsert_length entryLe H e0
    have hperm_pushed : pushed ~ e0 :: H := List.perm_orderedInsert entryLe e0 H
    have hevlen : offers.length = H.length + ev.length := by
      have h1 := hperm.length_eq
      simp only [entriesOf, List.length_map, List.length_append] at h1
      exact h1
    have hentry : entriesOf (offers ++ [p]) = entriesOf offers ++ [e0] := by
      unfold entriesOf
      rw [List.map_append]
      rfl
    by_cases hcase : K < pushed.length
    · -- the heap was full: the minimum (the head) is evicted
      obtain ⟨m, rest, hp⟩ : ∃ m rest, pushed = m :: rest := by
        cases hpc : pushed with
        | nil => rw [hpc, List.length_nil] at hlp; omega
        | cons m rest => exact ⟨m, rest, rfl⟩
      have hnew : run_add_to_heap K (offers ++ [p]) = rest := by
        rw [hstep, if_pos hcase, hp]
        rfl
      have hrest_mem : ∀ e ∈ rest, e ∈ pushed := by
        intro e he; rw [hp]; exact List.mem_cons_of_mem m he
      have hm_mem : m ∈ pushed := by rw [hp]; simp
      have hsp2 : List.Sorted entryLe (m :: rest) := hp ▸ hsp
      have hm_le : ∀ e ∈ rest, entryLe m e := fun e he =>
        List.rel_of_sorted_cons hsp2 e he
      have hmemH : ∀ e ∈ pushed, e = e0 ∨ e ∈ H :=
        fun e he => (List.mem_orderedInsert entryLe).1 (hpushed ▸ he)
      refine ⟨?_, ?_, m :: ev, ?_, ?_⟩
      · rw [hnew]
        exact hsp2.of_cons
      · rw [hnew]
        have h1 : rest.length + 1 = H.length + 1 := by
          rw [← hlp, hp, List.length_cons]
        simp only [List.length_append, List.length_singleton]
        omega
      · rw [hnew, hentry]
        calc entriesOf offers ++ [e0]
            ~ (H ++ ev) ++ [e0] := hperm.append_right [e0]
          _ = H ++ (ev ++ [e0]) := by rw [List.append_assoc]
          _ ~ H ++ ([e0] ++ ev) := List.Perm.append_left H List.perm_append_comm
          _ = (H ++ [e0]) ++ ev := by rw [List.append_assoc]
          _ ~ pushed ++ ev :=
              (List.perm_append_comm.trans hperm_pushed.symm).append_right ev
          _ = m :: (rest ++ ev) := by rw [hp]; rfl
          _ ~ rest ++ (m :: ev) := List.perm_middle.symm
      · rw [hnew]
        intro f hf e he
        rcases List.mem_cons.1 hf with hfm | hfev
        · subst hfm
          exact not_pyLt_of_entryLe (hm_le e he)
        · rcases hmemH e (hrest_mem e he) with hee0 | heH
          · rcases hmemH m hm_mem with hme0 | hmH
            · -- the newly pushed entry was itself popped: rest permutes the old heap
              have h1 : m :: rest ~ e0 :: H := by rw [← hp]; exact hperm_pushed
              rw [hme0] at h1
              exact hdom f hfev e (h1.cons_inv.mem_iff.1 he)
            · -- the popped minimum came from the old heap
              have h1 : ¬ NpFloat.pyLt e.1 m.1 := not_pyLt_of_entryLe (hm_le e he)
              have h2 : ¬ NpFloat.pyLt m.1 f.1 := hdom f hfev m hmH
              have he_val : ValScored e := by rw [hee0]; exact he0val
              exact not_pyLt_trans he_val (hHval m hmH) (hevval f hfev) h1 h2
          · exact hdom f hfev e heH
    · -- the heap was not yet full: nothing is evicted, and nothing ever was
      have hnew : run_add_to_heap K (offers ++ [p]) = pushed := by
        rw [hstep, if_neg hcase]
      have hsmall : H.length + 1 ≤ K := by omega
      have hevnil : ev = [] := by
        have h1 : ev.length = 0 := by omega
        exact List.length_eq_zero.1 h1
      subst hevnil
      refine ⟨hnew ▸ hsp, ?_, [], ?_, by simp⟩
      · rw [hnew, hlp, hlen]
        simp only [List.length_append, List.length_singleton]
        omega
      · rw [hnew, hentry, List.append_nil]
        have hpH : entriesOf offers ~ H := by
          have h1 := hperm
          rw [List.append_nil] at h1
          exact h1
        calc entriesOf offers ++ [e0]
            ~ H ++ [e0] := hpH.append_right [e0]
          _ ~ e0 :: H := List.perm_append_comm
          _ ~ pushed := hperm_pushed.symm

end HeapLemmas

section CollectorOutput

/-- The heap never holds more than `K` entries. -/
theorem run_add_to_heap_length_le (K : ℕ) (offers : List (ScoredMatch NpFloat × ℚ)) :
    (run_add_to_heap K offers).length ≤ K := by
  induction offers using List.reverseRecOn with
  | nil => simp [run_add_to_heap]
  | append_singleton offers p ih =>
    rw [run_add_to_heap_append_singleton, add_to_heap_eq]
    have hlp := List.orderedInsert_length entryLe (run_add_to_heap K offers)
      (p.1.score, p.2, p.1)
    by_cases h : K <
        (List.orderedInsert entryLe (p.1.score, p.2, p.1) (run_add_to_heap K offers)).length
    · rw [if_pos h, List.length_tail]
      omega
    · rw [if_neg h]
      omega

/-- The drained output is the heap's payloads, up to order. -/
theorem sort_and_strip_perm (h : List HeapEntry) :
    sort_and_strip h ~ h.map fun e => e.2.2 :=
  (List.perm_insertionSort entryGe h).map _

/-- The descending comparator is total. -/
theorem entryGe_total : ∀ e f : HeapEntry, entryGe e f ∨ entryGe f e := by
  intro e f
  by_cases h : NpFloat.pyLt e.1 f.1
  · exact Or.inr (pyLt_asymm _ _ h)
  · exact Or.inl h

/-- The descending comparator chains through `val` scores. -/
theorem entryGe_trans_val (e f g : HeapEntry) (he : ValScored e) (hf : ValScored f)
    (hg : ValScored g) (h1 : entryGe e f) (h2 : entryGe f g) : entryGe e g :=
  not_pyLt_trans he hf hg h1 h2

/-- The drained output is non-increasing in score, for a heap of coherent
`val`-scored entries. -/
theorem sort_and_strip_sorted (h : List HeapEntry) (hv : ∀ e ∈ h, ValScored e)
    (hcoh : ∀ e ∈ h, e.1 = e.2.2.score) :
    (sort_and_strip h).Pairwise fun a b => ¬ NpFloat.pyLt a.score b.score := by
  have hs : (List.insertionSort entryGe h).Sorted entryGe :=
    sorted_insertionSort_of entryGe ValScored entryGe_total entryGe_trans_val h hv
  have hmem : ∀ e ∈ List.insertionSort entryGe h, e.1 = e.2.2.score := fun e he =>
    hcoh e ((List.perm_insertionSort entryGe h).mem_iff.1 he)
  unfold sort_and_strip
  rw [List.pairwise_map]
  refine hs.imp_of_mem ?_
  intro a b ha hb hab
  rw [← hmem a ha, ← hmem b hb]
  exact hab

end CollectorOutput

section IndexPathLemmas

/-- Projecting the first components of a zip takes a prefix. -/
theorem map_fst_zip_eq_take {α β : Type} :
    ∀ (l1 : List α) (l2 : List β), (l1.zip l2).map Prod.fst = l1.take l2.length
  | [], _ => by simp
  | _ :: _, [] => by simp
  | a :: l1, b :: l2 => by simp [map_fst_zip_eq_take l1 l2]

/-- Every match built from a `knn_query` response carries the requested match
type. -/
theorem knn_matches_match_type (idx : AnnIndex) (db : Db) (q : List ℚ) (k : ℕ)
    (mt : String) : ∀ m ∈ knn_matches idx db q k mt, m.match_type = mt := by
  intro m hm
  obtain ⟨p, _, rfl⟩ := List.mem_map.1 hm
  rfl

/-- Every match built from a self-filtered `knn_query` response carries the
requested match type and is not the query entity. -/
theorem similar_knn_matches_spec (idx : AnnIndex) (db : Db) (q : List ℚ) (qa : ℤ)
    (k : ℕ) (mt : String) :
    ∀ m ∈ similar_knn_matches idx db q qa k mt, m.match_type = mt ∧ m.appid ≠ qa := by
  intro m hm
  obtain ⟨p, hp, rfl⟩ := List.mem_map.1 hm
  have h2 := List.of_mem_filter hp
  refine ⟨rfl, ?_⟩
  simpa using h2

/-- Each entity id occurs at most once among the matches of a response whose
candidate row has no duplicates. -/
theorem count_appid_knn_matches (idx : AnnIndex) (db : Db) (q : List ℚ) (k : ℕ)
    (mt : String) (a : ℤ) (h : (idx.knn q k).1.Nodup) :
    ((knn_matches idx db q k mt).map fun m => m.appid).count a ≤ 1 := by
  unfold knn_matches
  rw [List.map_map]
  have h2 : ((idx.knn q k).1.zip (idx.knn q k).2).map
      ((fun m : ScoredMatch ℚ => m.appid) ∘
        fun p => (⟨p.1, db.names p.1, mt, 1 - p.2⟩ : ScoredMatch ℚ)) =
      ((idx.knn q k).1.zip (idx.knn q k).2).map Prod.fst := rfl
  rw [h2, map_fst_zip_eq_take]
  exact le_trans ((List.take_sublist _ _).count_le a)
    (List.nodup_iff_count_le_one.1 h a)

/-- As above, for the self-filtered matches of `index_search_similar`. -/
theorem count_appid_similar_knn_matches (idx : AnnIndex) (db : Db) (q : List ℚ)
    (qa : ℤ) (k : ℕ) (mt : String) (a : ℤ) (h : (idx.knn q k).1.Nodup) :
    ((similar_knn_matches idx db q qa k mt).map fun m => m.appid).count a ≤ 1 := by
  unfold similar_knn_matches
  rw [List.map_map]
  have h2 : (((idx.knn q k).1.zip (idx.knn q k).2).filter fun p => p.1 != qa).map
      ((fun m : ScoredMatch ℚ => m.appid) ∘
        fun p => (⟨p.1, db.names p.1, mt, 1 - p.2⟩ : ScoredMatch ℚ)) =
      (((idx.knn q k).1.zip (idx.knn q k).2).filter fun p => p.1 != qa).map Prod.fst := rfl
  rw [h2]
  have h3 : (((idx.knn q k).1.zip (idx.knn q k).2).filter fun p => p.1 != qa).map
      Prod.fst <+ ((idx.knn q k).1.zip (idx.knn q k).2).map Prod.fst :=
    (List.filter_sublist _).map _
  refine le_trans (h3.count_le a) ?_
  rw [map_fst_zip_eq_take]
  exact le_trans ((List.take_sublist _ _).count_le a)
    (List.nodup_iff_count_le_one.1 h a)

/-- Counting appids through the final sort-and-truncate step, restricted by a
filter. -/
theorem count_appid_take_sort_filter_le (ml : List (ScoredMatch ℚ)) (k : ℕ) (a : ℤ)
    (p : ScoredMatch ℚ → Bool) :
    ((((List.insertionSort matchGe ml).take k).filter p).map fun m => m.appid).count a ≤
      ((ml.filter p).map fun m => m.appid).count a := by
  have h1 : ((List.insertionSort matchGe ml).take k).filter p <+
      (List.insertionSort matchGe ml).filter p :=
    (List.take_sublist _ _).filter p
  have h2 : (List.insertionSort matchGe ml).filter p ~ ml.filter p :=
    (List.perm_insertionSort matchGe ml).filter p
  exact le_of_le_of_eq ((h1.map _).count_le a) ((h2.map _).count_eq a)

/-- Counting appids through the final sort-and-truncate step. -/
theorem count_appid_take_sort_le (ml : List (ScoredMatch ℚ)) (k : ℕ) (a : ℤ) :
    (((List.insertionSort matchGe ml).take k).map fun m => m.appid).count a ≤
      (ml.map fun m => m.appid).count a := by
  have h1 : ((List.insertionSort matchGe ml).take k).map (fun m => m.appid) <+
      (List.insertionSort matchGe ml).map fun m => m.appid :=
    (List.take_sublist _ _).map _
  exact le_of_le_of_eq (h1.count_le a)
    (((List.perm_insertionSort matchGe ml).map _).count_eq a)

/-- The `ok` results of `index_search_similar` are a truncated descending sort
of two per-type, possibly empty, self-filtered match lists. -/
theorem index_search_similar_ok (dI rI : AnnIndex) (db : Db) (qa : ℤ) (t : String)
    (k : ℕ) (l : List (ScoredMatch ℚ))
    (h : index_search_similar dI rI db qa t k = Except.ok l) :
    ∃ m1 m2 : List (ScoredMatch ℚ),
      l = (List.insertionSort matchGe (m1 ++ m2)).take k ∧
      (m1 = [] ∨ ∃ qe, m1 = similar_knn_matches dI db qe qa (k + 1) "description") ∧
      (m2 = [] ∨ ∃ qe, m2 = similar_knn_matches rI db qe qa (k + 1) "review") := by
  simp only [index_search_similar] at h
  split at h
  case _ m1 m2 heq1 heq2 =>
    refine ⟨m1, m2, by simpa using h.symm, ?_, ?_⟩
    · split at heq1
      · split at heq1
        · exact absurd heq1 (by simp)
        · exact Or.inr ⟨_, by simpa using heq1.symm⟩
      · exact Or.inl (by simpa using heq1.symm)
    · split at heq2
      · split at heq2
        · exact absurd heq2 (by simp)
        · exact Or.inr ⟨_, by simpa using heq2.symm⟩
      · exact Or.inl (by simpa using heq2.symm)
  case _ => exact absurd h (by simp)
  case _ => exact absurd h (by simp)

end IndexPathLemmas


section ScanLemmas

/-- An invariant of heap entries preserved by every scan step holds of the
final scan state. -/
theorem foldl_scan_preserves {β : Type} (step : ScanState → β → ScanState)
    (P : HeapEntry → Prop)
    (h : ∀ st x, (∀ e ∈ st.1, P e) → ∀ e ∈ (step st x).1, P e) :
    ∀ (l : List β) (init : ScanState), (∀ e ∈ init.1, P e) →
      ∀ e ∈ (l.foldl step init).1, P e := by
  intro l
  induction l with
  | nil => intro init hinit; exact hinit
  | cons x l ih =>
    intro init hinit
    exact ih _ (h init x hinit)

/-- Everything drained from a heap is the payload of one of its entries. -/
theorem mem_sort_and_strip {st : List HeapEntry} {m : ScoredMatch NpFloat}
    (hm : m ∈ sort_and_strip st) : ∃ e ∈ st, e.2.2 = m := by
  unfold sort_and_strip at hm
  obtain ⟨e, he, rfl⟩ := List.mem_map.1 hm
  exact ⟨e, (List.mem_insertionSort entryGe).1 he, rfl⟩

/-- The description loop of `search_similar` inserts no entry for the query
entity. -/
theorem search_similar_desc_stage_ne (db : Db) (qa : ℤ) (qm : MeanResult) (k : ℕ)
    (ties : ℕ → ℚ) (init : ScanState)
    (hinit : ∀ e ∈ init.1, e.2.2.appid ≠ qa) :
    ∀ e ∈ (search_similar_desc_stage db qa qm k ties init).1, e.2.2.appid ≠ qa := by
  refine foldl_scan_preserves _ _ ?_ _ _ hinit
  intro st pg hst x hx
  refine foldl_scan_preserves _ _ ?_ pg st hst x hx
  intro st2 pr hst2 y hy
  by_cases hpr : pr.1 = qa
  · rw [if_pos hpr] at hy
    exact hst2 y hy
  · rw [if_neg hpr] at hy
    rcases mem_add_to_heap hy with rfl | hy2
    · exact hpr
    · exact hst2 y hy2

/-- The review loop of `search_similar` inserts no entry for the query
entity. -/
theorem search_similar_review_stage_ne (db : Db) (qa : ℤ) (qm : MeanResult) (k : ℕ)
    (ties : ℕ → ℚ) (init : ScanState)
    (hinit : ∀ e ∈ init.1, e.2.2.appid ≠ qa) :
    ∀ e ∈ (search_similar_review_stage db qa qm k ties init).1, e.2.2.appid ≠ qa := by
  refine foldl_scan_preserves _ _ ?_ _ _ hinit
  intro st ca hst y hy
  by_cases hca : ca = qa
  · rw [if_pos hca] at hy
    exact hst y hy
  · rw [if_neg hca] at hy
    rcases mem_add_to_heap hy with rfl | hy2
    · exact hca
    · exact hst y hy2

end ScanLemmas

/-- C3: for every store, ANN oracle, entity, match type and result bound,
entity-similarity ranking never returns the query entity itself: on the
exhaustive path (`search_similar`) the candidate loops skip it before scoring,
and on the index path (`index_search_similar`) each `knn_query` response is
filtered before the merge, so every match of a successful result has a
different appid. -/
theorem c3_self_exclusion (db : Db) (dI rI : AnnIndex) (qa : ℤ) (t : String) (k : ℕ)
    (ties : ℕ → ℚ) (l : List (ScoredMatch ℚ)) :
    (∀ m ∈ search_similar db qa t k ties, m.appid ≠ qa) ∧
    (index_search_similar dI rI db qa t k = Except.ok l → ∀ m ∈ l, m.appid ≠ qa) := by
  constructor
  · intro m hm
    simp only [search_similar] at hm
    obtain ⟨e, he, rfl⟩ := mem_sort_and_strip hm
    have hbase : ∀ x ∈ (([], 0) : ScanState).1, x.2.2.appid ≠ qa := by simp
    have h1 : ∀ x ∈ (if t = "all" ∨ t = "description" then
        search_similar_desc_stage db qa (mean_pooling (db.descFor qa)) k ties ([], 0)
      else (([], 0) : ScanState)).1, x.2.2.appid ≠ qa := by
      split
      · exact search_similar_desc_stage_ne db qa _ k ties _ hbase
      · exact hbase
    revert he
    split
    · intro he
      exact search_similar_review_stage_ne db qa _ k ties _ h1 e he
    · intro he
      exact h1 e he
  · intro h m hm
    obtain ⟨m1, m2, rfl, h1, h2⟩ := index_search_similar_ok dI rI db qa t k l h
    have hm2 := (List.mem_insertionSort matchGe).1 (List.mem_of_mem_take hm)
    rcases List.mem_append.1 hm2 with hmem | hmem
    · rcases h1 with rfl | ⟨qe, rfl⟩
      · simp at hmem
      · exact (similar_knn_matches_spec dI db qe qa (k + 1) "description" m hmem).2
    · rcases h2 with rfl | ⟨qe, rfl⟩
      · simp at hmem
      · exact (similar_knn_matches_spec rI db qe qa (k + 1) "review" m hmem).2

/-- C2: the bounded collector (`add_to_heap` with capacity `K ≥ 1`): after any
finite sequence of offers with proper float scores, the heap never exceeds `K`
entries (at every prefix of the sequence), holds exactly `min K n` entries at
the end, and the retained entries together with the evicted ones permute all
offered entries with every evicted score at or below every retained score — a
true top-K by score, ties resolved arbitrarily.  The final sort drains exactly
the retained payloads, in non-increasing score order. -/
theorem c2_bounded_topk (K : ℕ) (_hK : 1 ≤ K) (offers : List (ScoredMatch NpFloat × ℚ))
    (hval : ∀ p ∈ offers, ∃ x : ℝ, p.1.score = NpFloat.val x) :
    (∀ n : ℕ, (run_add_to_heap K (offers.take n)).length ≤ K) ∧
    (run_add_to_heap K offers).length = min K offers.length ∧
    (∃ evicted : List HeapEntry,
      entriesOf offers ~ run_add_to_heap K offers ++ evicted ∧
      ∀ f ∈ evicted, ∀ e ∈ run_add_to_heap K offers, ¬ NpFloat.pyLt e.1 f.1) ∧
    sort_and_strip (run_add_to_heap K offers) ~
      (run_add_to_heap K offers).map (fun e => e.2.2) ∧
    (sort_and_strip (run_add_to_heap K offers)).Pairwise
      (fun a b => ¬ NpFloat.pyLt a.score b.score) := by
  obtain ⟨hs, hlen, ev, hperm, hdom⟩ := run_add_to_heap_invariant K offers hval
  refine ⟨fun n => run_add_to_heap_length_le K _, hlen, ⟨ev, hperm, hdom⟩,
    sort_and_strip_perm _, ?_⟩
  refine sort_and_strip_sorted _ ?_ ?_
  · intro e he
    exact entriesOf_val hval e (hperm.mem_iff.2 (List.mem_append_left _ he))
  · intro e he
    have h2 := hperm.mem_iff.2 (List.mem_append_left _ he)
    obtain ⟨p, hp, rfl⟩ := List.mem_map.1 h2
    rfl

/-- Witness for C2 at capacity 2 and three concrete offers. -/
theorem c2_bounded_topk_witness :
    (run_add_to_heap 2 c2_offers).length = min 2 c2_offers.length :=
  (c2_bounded_topk 2 (by norm_num) c2_offers (by
    intro p hp
    simp only [c2_offers, List.mem_cons, List.not_mem_nil, or_false] at hp
    rcases hp with rfl | rfl | rfl <;> exact ⟨_, rfl⟩)).2.1

/-- C4: every index-path query merges the per-type match lists, sorts by score
descending with a stable sort (each class of equal-score matches keeps its
original relative order: the output's class is a prefix of the merged list's),
and truncates to `max_results`; hence the output has at most `max_results`
elements and non-increasing scores.  The same bound and order hold of every
successful `index_search_similar` result. -/
theorem c4_merge_sort_truncate (dI rI : AnnIndex) (db : Db) (q : List ℚ) (qa : ℤ)
    (t : String) (k : ℕ) (l : List (ScoredMatch ℚ)) :
    (index_search dI rI db q t k).length ≤ k ∧
    (index_search dI rI db q t k).Pairwise (fun a b => b.score ≤ a.score) ∧
    (∀ s : ℚ, ∃ n : ℕ,
      (index_search dI rI db q t k).filter (fun m => m.score == s) =
        ((index_search_merged dI rI db q t k).filter fun m => m.score == s).take n) ∧
    (index_search_similar dI rI db qa t k = Except.ok l →
      l.length ≤ k ∧ l.Pairwise fun a b => b.score ≤ a.score) := by
  refine ⟨?_, ?_, ?_, ?_⟩
  · unfold index_search
    rw [List.length_take]
    exact min_le_left _ _
  · unfold index_search
    exact List.Pairwise.sublist (List.take_sublist _ _)
      (List.sorted_insertionSort matchGe _)
  · intro s
    unfold index_search
    obtain ⟨n, hn⟩ := filter_take_eq_take_filter (fun m => m.score == s)
      (List.insertionSort matchGe (index_search_merged dI rI db q t k)) k
    refine ⟨n, ?_⟩
    rw [hn, filter_insertionSort_stable]
    intro a b ha hb
    have h1 : a.score = s := by simpa using ha
    have h2 : b.score = s := by simpa using hb
    unfold matchGe
    rw [h1, h2]
  · intro h
    obtain ⟨m1, m2, rfl, h1, h2⟩ := index_search_similar_ok dI rI db qa t k l h
    constructor
    · rw [List.length_take]
      exact min_le_left _ _
    · exact List.Pairwise.sublist (List.take_sublist _ _)
        (List.sorted_insertionSort matchGe _)

/-- C1 fails on the code: with match type "all", an entity that both indexes
return appears once per match type — here entity 7 is listed twice. -/
theorem c1_dup_counterexample :
    ¬ ((index_search c1_desc_idx c1_rev_idx c1_db [] "all" 10).map
        fun m => m.appid).Nodup := by
  have h : ((index_search c1_desc_idx c1_rev_idx c1_db [] "all" 10).map
      fun m => m.appid) = [7, 7] := by
    norm_num [index_search, index_search_merged, knn_matches, c1_desc_idx, c1_rev_idx,
      c1_db, matchGe]
  rw [h]
  simp

/-- C1 amended: in every index-path result (text or entity-similarity), each
entity id appears at most once per match type — hence at most twice overall
with "all" — provided each `knn_query` response row lists no candidate
twice. -/
theorem c1_amended_per_type (dI rI : AnnIndex) (db : Db) (q : List ℚ) (qa : ℤ)
    (t : String) (k : ℕ) (a : ℤ) (l : List (ScoredMatch ℚ))
    (hd : ∀ (q' : List ℚ) (k' : ℕ), (dI.knn q' k').1.Nodup)
    (hr : ∀ (q' : List ℚ) (k' : ℕ), (rI.knn q' k').1.Nodup) :
    ((index_search dI rI db q t k).map (fun m => m.appid)).count a ≤ 2 ∧
    (((index_search dI rI db q t k).filter fun m => m.match_type == "description").map
      (fun m => m.appid)).count a ≤ 1 ∧
    (((index_search dI rI db q t k).filter fun m => m.match_type == "review").map
      (fun m => m.appid)).count a ≤ 1 ∧
    (index_search_similar dI rI db qa t k = Except.ok l →
      (l.map fun m => m.appid).count a ≤ 2) := by
  have hcd : ((if t = "all" ∨ t = "description" then
      knn_matches dI db q k "description" else []).map fun m => m.appid).count a ≤ 1 := by
    split
    · exact count_appid_knn_matches dI db q k "description" a (hd q k)
    · simp
  have hcr : ((if t = "all" ∨ t = "review" then
      knn_matches rI db q k "review" else []).map fun m => m.appid).count a ≤ 1 := by
    split
    · exact count_appid_knn_matches rI db q k "review" a (hr q k)
    · simp
  refine ⟨?_, ?_, ?_, ?_⟩
  · unfold index_search
    refine le_trans (count_appid_take_sort_le _ k a) ?_
    unfold index_search_merged
    rw [List.map_append, List.count_append]
    omega
  · unfold index_search
    refine le_trans (count_appid_take_sort_filter_le _ k a _) ?_
    unfold index_search_merged
    rw [List.filter_append, List.map_append, List.count_append]
    have hnil : ((if t = "all" ∨ t = "review" then
        knn_matches rI db q k "review" else []).filter
          fun m => m.match_type == "description") = [] := by
      rw [List.filter_eq_nil_iff]
      intro m hm
      split at hm
      · have := knn_matches_match_type rI db q k "review" m hm
        simp [this]
      · simp at hm
    rw [hnil]
    have hsub : (((if t = "all" ∨ t = "description" then
        knn_matches dI db q k "description" else []).filter
          fun m => m.match_type == "description").map fun m => m.appid) <+
        ((if t = "all" ∨ t = "description" then
          knn_matches dI db q k "description" else []).map fun m => m.appid) :=
      (List.filter_sublist _).map _
    have := le_trans (hsub.count_le a) hcd
    simpa using this
  · unfold index_search
    refine le_trans (count_appid_take_sort_filter_le _ k a _) ?_
    unfold index_search_merged
    rw [List.filter_append, List.map_append, List.count_append]
    have hnil : ((if t = "all" ∨ t = "description" then
        knn_matches dI db q k "description" else []).filter
          fun m => m.match_type == "review") = [] := by
      rw [List.filter_eq_nil_iff]
      intro m hm
      split at hm
      · have := knn_matches_match_type dI db q k "description" m hm
        simp [this]
      · simp at hm
    rw [hnil]
    have hsub : (((if t = "all" ∨ t = "review" then
        knn_matches rI db q k "review" else []).filter
          fun m => m.match_type == "review").map fun m => m.appid) <+
        ((if t = "all" ∨ t = "review" then
          knn_matches rI db q k "review" else []).map fun m => m.appid) :=
      (List.filter_sublist _).map _
    have := le_trans (hsub.count_le a) hcr
    simpa using this
  · intro h
    obtain ⟨m1, m2, rfl, h1, h2⟩ := index_search_similar_ok dI rI db qa t k l h
    refine le_trans (count_appid_take_sort_le _ k a) ?_
    rw [List.map_append, List.count_append]
    have hc1 : (m1.map fun m => m.appid).count a ≤ 1 := by
      rcases h1 with rfl | ⟨qe, rfl⟩
      · simp
      · exact count_appid_similar_knn_matches dI db qe qa (k + 1) "description" a
          (hd qe (k + 1))
    have hc2 : (m2.map fun m => m.appid).count a ≤ 1 := by
      rcases h2 with rfl | ⟨qe, rfl⟩
      · simp
      · exact count_appid_similar_knn_matches rI db qe qa (k + 1) "review" a
          (hr qe (k + 1))
    omega

/-- Witness for the amended C1 on the duplicate-producing fixture. -/
theorem c1_amended_witness :
    ((index_search c1_desc_idx c1_rev_idx c1_db [] "all" 10).map
      (fun m => m.appid)).count 7 ≤ 2 :=
  (c1_amended_per_type c1_desc_idx c1_rev_idx c1_db [] 0 "all" 10 7 []
    (fun _ _ => by simp [c1_desc_idx]) (fun _ _ => by simp [c1_rev_idx])).1

/-- C7 fails on the code: entity 42 has no description embeddings, and an
entity-similarity query of type "all" is not silently skipped — the degenerate
NaN aggregate is sent to the fixed-dimension index, which fails. -/
theorem c7_no_skip_counterexample :
    index_search_similar c7_idx c7_idx c7_db 42 "all" 10 =
      Except.error "knn_query: query dimension mismatch" := rfl

/-- C7 amended: a requested match type for which the source entity has no
stored vectors is not skipped: `mean_pooling` of the empty list is a scalar
NaN, the `knn_query` on it fails, and the whole request errors — including
when the entity has no embeddings of any requested type (no empty list is
returned). -/
theorem c7_amended_error_on_missing (dI rI : AnnIndex) (db : Db) (qa : ℤ) (t : String)
    (k : ℕ) :
    ((t = "all" ∨ t = "description") → db.descFor qa = [] →
      index_search_similar dI rI db qa t k =
        Except.error "knn_query: query dimension mismatch") ∧
    (t = "review" → reviewFlat db qa = [] →
      index_search_similar dI rI db qa t k =
        Except.error "knn_query: query dimension mismatch") := by
  constructor
  · intro h1 h2
    unfold index_search_similar
    rw [if_pos h1, h2]
    rfl
  · intro h1 h2
    unfold index_search_similar
    rw [h2, if_neg (by simp [h1]), if_pos (Or.inr h1)]
    rfl

/-- C9: the index path is deterministic in its inputs: runs against indexes
that answer the query identically produce identical ordered output (and in
particular two runs with identical arguments agree). -/
theorem c9_deterministic (d1 r1 d2 r2 : AnnIndex) (db : Db) (q : List ℚ) (t : String)
    (k : ℕ) (hd : d1.knn q k = d2.knn q k) (hr : r1.knn q k = r2.knn q k) :
    index_search d1 r1 db q t k = index_search d2 r2 db q t k := by
  unfold index_search index_search_merged knn_matches
  rw [hd, hr]

/-- Witness for C9: two runs with identical arguments. -/
theorem c9_deterministic_witness :
    index_search c9_idx c9_idx c9_db [] "all" 10 =
      index_search c9_idx c9_idx c9_db [] "all" 10 :=
  c9_deterministic c9_idx c9_idx c9_idx c9_idx c9_db [] "all" 10 rfl rfl

/-- C10: the handlers' result-count limit: absent means 10, a supplied `n`
becomes `max 0 (min n 100)`, so the effective limit lies in `[0, 100]`, a
negative request yields limit 0, and the index search never returns more than
100 matches. -/
theorem c10_clamp (raw : Option ℤ) (dI rI : AnnIndex) (db : Db) (q : List ℚ)
    (t : String) :
    0 ≤ clamp_num_results raw ∧ clamp_num_results raw ≤ 100 ∧
    clamp_num_results none = 10 ∧
    (∀ n : ℤ, clamp_num_results (some n) = max 0 (min n 100)) ∧
    (∀ n : ℤ, n < 0 → clamp_num_results (some n) = 0) ∧
    (index_search dI rI db q t (clamp_num_results raw).toNat).length ≤ 100 := by
  have h100 : ∀ r : Option ℤ, clamp_num_results r ≤ 100 := by
    intro r
    unfold clamp_num_results
    exact max_le (by norm_num) (min_le_right _ _)
  refine ⟨le_max_left _ _, h100 raw, rfl, fun n => rfl, ?_, ?_⟩
  · intro n hn
    unfold clamp_num_results
    rw [min_eq_left (by linarith : n ≤ (100 : ℤ)), max_eq_left (le_of_lt hn)]
  · have h1 : (index_search dI rI db q t (clamp_num_results raw).toNat).length ≤
        (clamp_num_results raw).toNat := by
      unfold index_search
      rw [List.length_take]
      exact min_le_left _ _
    have h2 : (clamp_num_results raw).toNat ≤ 100 := by
      have := h100 raw
      omega
    omega

section NumericLemmas

/-- A sum of squares is non-negative. -/
theorem normSq_nonneg (a : List ℚ) : 0 ≤ normSq a := by
  unfold normSq
  refine List.sum_nonneg ?_
  intro x hx
  obtain ⟨y, _, rfl⟩ := List.mem_map.1 hx
  exact mul_self_nonneg y

/-- A vector of zero square-norm is the zero vector, so any dot product with
it vanishes (left operand). -/
theorem np_dot_eq_zero_of_normSq_zero :
    ∀ (a b : List ℚ), normSq a = 0 → np_dot a b = 0 := by
  intro a
  induction a with
  | nil => intro b _; rfl
  | cons x a ih =>
    intro b h
    have hx2 : 0 ≤ x * x := mul_self_nonneg x
    have ha : 0 ≤ normSq a := normSq_nonneg a
    have hsum : x * x + normSq a = 0 := by
      unfold normSq at h ⊢
      simpa [List.map_cons, List.sum_cons] using h
    have hx : x = 0 := by
      have : x * x = 0 := by linarith
      exact mul_self_eq_zero.1 this
    have ha0 : normSq a = 0 := by linarith
    cases b with
    | nil => rfl
    | cons y b =>
      unfold np_dot at ih ⊢
      simp [hx, ih b ha0]

/-- The dot product is symmetric. -/
theorem np_dot_comm (a b : List ℚ) : np_dot a b = np_dot b a :=
  congrArg List.sum (List.zipWith_comm_of_comm _ mul_comm a b)

/-- The norm of a zero-square-norm vector is zero. -/
theorem np_norm_eq_zero (a : List ℚ) (h : normSq a = 0) : np_norm a = 0 := by
  unfold np_norm
  rw [h]
  simp

/-- The norm of a vector of non-zero square-norm is positive. -/
theorem np_norm_pos (a : List ℚ) (h : normSq a ≠ 0) : 0 < np_norm a := by
  unfold np_norm
  refine Real.sqrt_pos.2 ?_
  have h1 : 0 < normSq a := lt_of_le_of_ne (normSq_nonneg a) (Ne.symm h)
  exact_mod_cast h1

end NumericLemmas

/-- C5 fails on the code: there is no `ZeroVectorError` — on zero-norm
operands `cosine_similarity` evaluates `0.0 / 0.0` and returns NaN to its
caller (numpy only warns). -/
theorem c5_zero_vector_counterexample :
    cosine_similarity [0] [0] = NpFloat.nan := by
  have hd : np_dot [0] [0] = 0 := by norm_num [np_dot]
  have hn : normSq [(0 : ℚ)] = 0 := by norm_num [normSq]
  unfold cosine_similarity npDiv
  rw [hd, np_norm_eq_zero [0] hn]
  norm_num

/-- C5 amended: `cosine_similarity` returns `dot(a,b) / (‖a‖·‖b‖)` whenever
both operands have non-zero norm; when either operand has zero norm it raises
nothing and returns NaN to the caller (the candidate is still scored, with
NaN, not skipped). -/
theorem c5_amended_cosine (a b : List ℚ) :
    (normSq a ≠ 0 → normSq b ≠ 0 →
      cosine_similarity a b =
        NpFloat.val (((np_dot a b : ℚ) : ℝ) / (np_norm a * np_norm b))) ∧
    ((normSq a = 0 ∨ normSq b = 0) → cosine_similarity a b = NpFloat.nan) := by
  constructor
  · intro ha hb
    unfold cosine_similarity npDiv
    rw [if_neg (ne_of_gt (mul_pos (np_norm_pos a ha) (np_norm_pos b hb)))]
  · intro h
    have hd : np_dot a b = 0 := by
      rcases h with h | h
      · exact np_dot_eq_zero_of_normSq_zero a b h
      · rw [np_dot_comm]
        exact np_dot_eq_zero_of_normSq_zero b a h
    have hn : np_norm a * np_norm b = 0 := by
      rcases h with h | h
      · rw [np_norm_eq_zero a h, zero_mul]
      · rw [np_norm_eq_zero b h, mul_zero]
    unfold cosine_similarity npDiv
    rw [hd, hn]
    norm_num

section MeanLemmas

/-- Pointwise reading of `zipWith (+)` (within bounds). -/
theorem getD_zipWith_add :
    ∀ (l1 l2 : List ℚ) (i : ℕ), i < l1.length → i < l2.length →
      (List.zipWith (· + ·) l1 l2).getD i 0 = l1.getD i 0 + l2.getD i 0
  | _ :: _, _ :: _, 0, _, _ => by simp
  | a :: l1, b :: l2, i + 1, h1, h2 => by
    simp only [List.zipWith_cons_cons, List.getD_cons_succ]
    exact getD_zipWith_add l1 l2 i (by simpa using h1) (by simpa using h2)
  | [], _, _, h1, _ => absurd h1 (by simp)
  | _ :: _, [], _, _, h2 => absurd h2 (by simp)

/-- Pointwise reading of the scaling map (within bounds). -/
theorem getD_map_div (l : List ℚ) (c : ℚ) (i : ℕ) (h : i < l.length) :
    (l.map fun x => x / c).getD i 0 = l.getD i 0 / c := by
  rw [List.getD_eq_getElem _ _ (by simpa using h), List.getElem_map,
    List.getD_eq_getElem _ _ h]

/-- The `np.sum(_, axis=0)` fold over equal-length vectors: its length and its
pointwise value. -/
theorem foldl_zipWith_spec (d : ℕ) (rest : List (List ℚ)) :
    ∀ v : List ℚ, v.length = d → (∀ w ∈ rest, w.length = d) →
      (rest.foldl (fun acc w => List.zipWith (· + ·) acc w) v).length = d ∧
      ∀ i, i < d →
        (rest.foldl (fun acc w => List.zipWith (· + ·) acc w) v).getD i 0 =
          v.getD i 0 + (rest.map fun w => w.getD i 0).sum := by
  induction rest with
  | nil =>
    intro v hv _
    exact ⟨hv, fun i _ => by simp⟩
  | cons w rest ih =>
    intro v hv hrest
    have hw : w.length = d := hrest w (by simp)
    have hacc : (List.zipWith (· + ·) v w).length = d := by
      rw [List.length_zipWith, hv, hw, min_self]
    obtain ⟨hl, hg⟩ := ih (List.zipWith (· + ·) v w) hacc
      (fun u hu => hrest u (by simp [hu]))
    refine ⟨by simpa using hl, ?_⟩
    intro i hi
    simp only [List.foldl_cons]
    rw [hg i hi, getD_zipWith_add v w i (hv ▸ hi) (hw ▸ hi)]
    simp [add_assoc]

end MeanLemmas

/-- C6 fails on the code: there is no `EmptyInputError` — on the empty input
`mean_pooling` evaluates `np.sum([], axis=0) / 0`, i.e. `0.0 / 0`, and returns
the scalar NaN (numpy only warns). -/
theorem c6_empty_mean_counterexample : mean_pooling [] = MeanResult.nanScalar := rfl

/-- C6 amended: for every non-empty list of equal-dimension vectors,
`mean_pooling` returns the elementwise arithmetic mean; for the empty list it
raises nothing and returns the scalar NaN. -/
theorem c6_amended_mean_pooling (vs : List (List ℚ)) (d : ℕ) :
    (vs ≠ [] → (∀ v ∈ vs, v.length = d) →
      ∃ m : List ℚ, mean_pooling vs = MeanResult.vec m ∧ m.length = d ∧
        ∀ i, i < d →
          m.getD i 0 = (vs.map fun v => v.getD i 0).sum / (vs.length : ℚ)) ∧
    mean_pooling [] = MeanResult.nanScalar := by
  refine ⟨?_, rfl⟩
  intro hne hdim
  obtain ⟨v, rest, rfl⟩ := List.exists_cons_of_ne_nil hne
  obtain ⟨hl, hg⟩ := foldl_zipWith_spec d rest v (hdim v (by simp))
    (fun w hw => hdim w (by simp [hw]))
  refine ⟨(rest.foldl (fun acc w => List.zipWith (· + ·) acc w) v).map
    (fun x => x / (((v :: rest).length : ℕ) : ℚ)), rfl, ?_, ?_⟩
  · rw [List.length_map, hl]
  · intro i hi
    rw [getD_map_div _ _ i (by rw [hl]; exact hi), hg i hi]
    simp [List.map_cons, List.sum_cons]

section C8Lemmas

/-- Cosine of unit vectors is the dot product. -/
theorem cosine_of_unit (a b : List ℚ) (ha : normSq a = 1) (hb : normSq b = 1) :
    cosine_similarity a b = NpFloat.val ((np_dot a b : ℚ) : ℝ) := by
  unfold cosine_similarity np_norm
  rw [ha, hb]
  norm_num [npDiv]

/-- Max-over-set of a single embedding is its cosine score. -/
theorem compare_single (v q : List ℚ) (hv : normSq v = 1) (hq : normSq q = 1) :
    compare_all_embeddings_take_max [v] q = NpFloat.val ((np_dot v q : ℚ) : ℝ) := by
  unfold compare_all_embeddings_take_max pyMax
  simp only [List.map_cons, List.map_nil, List.foldl_nil]
  exact cosine_of_unit v q hv hq

/-- A strictly smaller `val` score sorts (weakly) before in the min-heap
order. -/
theorem entryLe_of_lt {x y : ℝ} {t s : ℚ} {m n : ScoredMatch NpFloat} (h : x < y) :
    entryLe (NpFloat.val x, t, m) (NpFloat.val y, s, n) := by
  rintro (h1 | ⟨h1, _⟩)
  · exact absurd (pyLt_val.1 h1) (by linarith)
  · exact absurd (pyEq_val.1 h1) (by linarith)

/-- A strictly smaller `val` score does not sort before in the descending
comparator. -/
theorem not_entryGe_of_lt {x y : ℝ} {t s : ℚ} {m n : ScoredMatch NpFloat} (h : x < y) :
    ¬ entryGe (NpFloat.val x, t, m) (NpFloat.val y, s, n) :=
  fun hge => hge (pyLt_val.2 h)

/-- `add_to_heap` below capacity is a plain insertion. -/
theorem add_to_heap_not_full (heap : List HeapEntry) (item : ScoredMatch NpFloat)
    (K : ℕ) (tie : ℚ) (h : heap.length + 1 ≤ K) :
    add_to_heap heap item K tie =
      List.orderedInsert entryLe (item.score, tie, item) heap := by
  rw [add_to_heap_eq, if_neg]
  rw [List.orderedInsert_length]
  omega

end C8Lemmas

/-- C8: on the fixed five-entity, 3-dimensional unit-vector dataset of spec §8
and the query (1,0,0), the exhaustive path (`search`) and the index path
(`index_search` over an exact ANN oracle of the same stored vectors) return
the same ranking [1, 4, 3, 5, 2] — they agree exactly on the top-1 result and
their top-5 result sets are equal (zero disagreements), whatever the random
tiebreak stream; both rank by higher-score-first. -/
theorem c8_paths_agree :
    ∀ ties : ℕ → ℚ,
      ((search c8_db c8_q "description" 5 ties).map fun m => m.appid) =
        [1, 4, 3, 5, 2] ∧
      ((index_search (exactIndex c8_stored) (exactIndex c8_stored) c8_db c8_q
        "description" 5).map fun m => m.appid) = [1, 4, 3, 5, 2] := by
  intro ties
  constructor
  · have hq : normSq c8_q = 1 := by norm_num [normSq, c8_q]
    have hs1 : compare_all_embeddings_take_max [c8_v1] c8_q = NpFloat.val 1 := by
      rw [compare_single c8_v1 c8_q (by norm_num [normSq, c8_v1]) hq]
      norm_num [np_dot, c8_v1, c8_q]
    have hs2 : compare_all_embeddings_take_max [c8_v2] c8_q = NpFloat.val 0 := by
      rw [compare_single c8_v2 c8_q (by norm_num [normSq, c8_v2]) hq]
      norm_num [np_dot, c8_v2, c8_q]
    have hs3 : compare_all_embeddings_take_max [c8_v3] c8_q = NpFloat.val (3 / 5) := by
      rw [compare_single c8_v3 c8_q (by norm_num [normSq, c8_v3]) hq]
      norm_num [np_dot, c8_v3, c8_q]
    have hs4 : compare_all_embeddings_take_max [c8_v4] c8_q = NpFloat.val (4 / 5) := by
      rw [compare_single c8_v4 c8_q (by norm_num [normSq, c8_v4]) hq]
      norm_num [np_dot, c8_v4, c8_q]
    have hs5 : compare_all_embeddings_take_max [c8_v5] c8_q = NpFloat.val (5 / 13) := by
      rw [compare_single c8_v5 c8_q (by norm_num [normSq, c8_v5]) hq]
      norm_num [np_dot, c8_v5, c8_q]
    have h1 : add_to_heap [] ⟨1, "g", "description", NpFloat.val 1⟩ 5 (ties 0) =
        [(NpFloat.val 1, ties 0, ⟨1, "g", "description", NpFloat.val 1⟩)] := by
      rw [add_to_heap_not_full _ _ _ _ (by simp)]
      rfl
    have h2 : add_to_heap
        [(NpFloat.val 1, ties 0, ⟨1, "g", "description", NpFloat.val 1⟩)]
        ⟨4, "g", "description", NpFloat.val (4 / 5)⟩ 5 (ties 1) =
        [(NpFloat.val (4 / 5), ties 1, ⟨4, "g", "description", NpFloat.val (4 / 5)⟩),
         (NpFloat.val 1, ties 0, ⟨1, "g", "description", NpFloat.val 1⟩)] := by
      rw [add_to_heap_not_full _ _ _ _ (by simp)]
      exact List.orderedInsert_of_le entryLe _ (entryLe_of_lt (by norm_num))
    have h3 : add_to_heap
        [(NpFloat.val (4 / 5), ties 1, ⟨4, "g", "description", NpFloat.val (4 / 5)⟩),
         (NpFloat.val 1, ties 0, ⟨1, "g", "description", NpFloat.val 1⟩)]
        ⟨3, "g", "description", NpFloat.val (3 / 5)⟩ 5 (ties 2) =
        [(NpFloat.val (3 / 5), ties 2, ⟨3, "g", "description", NpFloat.val (3 / 5)⟩),
         (NpFloat.val (4 / 5), ties 1, ⟨4, "g", "description", NpFloat.val (4 / 5)⟩),
         (NpFloat.val 1, ties 0, ⟨1, "g", "description", NpFloat.val 1⟩)] := by
      rw [add_to_heap_not_full _ _ _ _ (by simp)]
      exact List.orderedInsert_of_le entryLe _ (entryLe_of_lt (by norm_num))
    have h4 : add_to_heap
        [(NpFloat.val (3 / 5), ties 2, ⟨3, "g", "description", NpFloat.val (3 / 5)⟩),
         (NpFloat.val (4 / 5), ties 1, ⟨4, "g", "description", NpFloat.val (4 / 5)⟩),
         (NpFloat.val 1, ties 0, ⟨1, "g", "description", NpFloat.val 1⟩)]
        ⟨5, "g", "description", NpFloat.val (5 / 13)⟩ 5 (ties 3) =
        [(NpFloat.val (5 / 13), ties 3, ⟨5, "g", "description", NpFloat.val (5 / 13)⟩),
         (NpFloat.val (3 / 5), ties 2, ⟨3, "g", "description", NpFloat.val (3 / 5)⟩),
         (NpFloat.val (4 / 5), ties 1, ⟨4, "g", "description", NpFloat.val (4 / 5)⟩),
         (NpFloat.val 1, ties 0, ⟨1, "g", "description", NpFloat.val 1⟩)] := by
      rw [add_to_heap_not_full _ _ _ _ (by simp)]
      exact List.orderedInsert_of_le entryLe _ (entryLe_of_lt (by norm_num))
    have h5 : add_to_heap
        [(NpFloat.val (5 / 13), ties 3, ⟨5, "g", "description", NpFloat.val (5 / 13)⟩),
         (NpFloat.val (3 / 5), ties 2, ⟨3, "g", "description", NpFloat.val (3 / 5)⟩),
         (NpFloat.val (4 / 5), ties 1, ⟨4, "g", "description", NpFloat.val (4 / 5)⟩),
         (NpFloat.val 1, ties 0, ⟨1, "g", "description", NpFloat.val 1⟩)]
        ⟨2, "g", "description", NpFloat.val 0⟩ 5 (ties 4) =
        [(NpFloat.val 0, ties 4, ⟨2, "g", "description", NpFloat.val 0⟩),
         (NpFloat.val (5 / 13), ties 3, ⟨5, "g", "description", NpFloat.val (5 / 13)⟩),
         (NpFloat.val (3 / 5), ties 2, ⟨3, "g", "description", NpFloat.val (3 / 5)⟩),
         (NpFloat.val (4 / 5), ties 1, ⟨4, "g", "description", NpFloat.val (4 / 5)⟩),
         (NpFloat.val 1, ties 0, ⟨1, "g", "description", NpFloat.val 1⟩)] := by
      rw [add_to_heap_not_full _ _ _ _ (by simp)]
      exact List.orderedInsert_of_le entryLe _ (entryLe_of_lt (by norm_num))
    have hstage : (search_desc_stage c8_db c8_q 5 ties ([], 0)).1 =
        [(NpFloat.val 0, ties 4, ⟨2, "g", "description", NpFloat.val 0⟩),
         (NpFloat.val (5 / 13), ties 3, ⟨5, "g", "description", NpFloat.val (5 / 13)⟩),
         (NpFloat.val (3 / 5), ties 2, ⟨3, "g", "description", NpFloat.val (3 / 5)⟩),
         (NpFloat.val (4 / 5), ties 1, ⟨4, "g", "description", NpFloat.val (4 / 5)⟩),
         (NpFloat.val 1, ties 0, ⟨1, "g", "description", NpFloat.val 1⟩)] := by
      unfold search_desc_stage
      simp only [c8_db, List.foldl_cons, List.foldl_nil, hs1, hs2, hs3, hs4, hs5]
      norm_num [h1, h2, h3, h4, h5]
    have g2 : List.orderedInsert entryGe
        (NpFloat.val (4 / 5), ties 1, ⟨4, "g", "description", NpFloat.val (4 / 5)⟩)
        [(NpFloat.val 1, ties 0, ⟨1, "g", "description", NpFloat.val 1⟩)] =
        [(NpFloat.val 1, ties 0, ⟨1, "g", "description", NpFloat.val 1⟩),
         (NpFloat.val (4 / 5), ties 1, ⟨4, "g", "description", NpFloat.val (4 / 5)⟩)] := by
      rw [List.orderedInsert, if_neg (not_entryGe_of_lt (by norm_num))]
      rfl
    have g3 : List.orderedInsert entryGe
        (NpFloat.val (3 / 5), ties 2, ⟨3, "g", "description", NpFloat.val (3 / 5)⟩)
        [(NpFloat.val 1, ties 0, ⟨1, "g", "description", NpFloat.val 1⟩),
         (NpFloat.val (4 / 5), ties 1, ⟨4, "g", "description", NpFloat.val (4 / 5)⟩)] =
        [(NpFloat.val 1, ties 0, ⟨1, "g", "description", NpFloat.val 1⟩),
         (NpFloat.val (4 / 5), ties 1, ⟨4, "g", "description", NpFloat.val (4 / 5)⟩),
         (NpFloat.val (3 / 5), ties 2, ⟨3, "g", "description", NpFloat.val (3 / 5)⟩)] := by
      rw [List.orderedInsert, if_neg (not_entryGe_of_lt (by norm_num)),
        List.orderedInsert, if_neg (not_entryGe_of_lt (by norm_num))]
      rfl
    have g4 : List.orderedInsert entryGe
        (NpFloat.val (5 / 13), ties 3, ⟨5, "g", "description", NpFloat.val (5 / 13)⟩)
        [(NpFloat.val 1, ties 0, ⟨1, "g", "description", NpFloat.val 1⟩),
         (NpFloat.val (4 / 5), ties 1, ⟨4, "g", "description", NpFloat.val (4 / 5)⟩),
         (NpFloat.val (3 / 5), ties 2, ⟨3, "g", "description", NpFloat.val (3 / 5)⟩)] =
        [(NpFloat.val 1, ties 0, ⟨1, "g", "description", NpFloat.val 1⟩),
         (NpFloat.val (4 / 5), ties 1, ⟨4, "g", "description", NpFloat.val (4 / 5)⟩),
         (NpFloat.val (3 / 5), ties 2, ⟨3, "g", "description", NpFloat.val (3 / 5)⟩),
         (NpFloat.val (5 / 13), ties 3, ⟨5, "g", "description", NpFloat.val (5 / 13)⟩)] := by
      rw [List.orderedInsert, if_neg (not_entryGe_of_lt (by norm_num)),
        List.orderedInsert, if_neg (not_entryGe_of_lt (by norm_num)),
        List.orderedInsert, if_neg (not_entryGe_of_lt (by norm_num))]
      rfl
    have g5 : List.orderedInsert entryGe
        (NpFloat.val 0, ties 4, ⟨2, "g", "description", NpFloat.val 0⟩)
        [(NpFloat.val 1, ties 0, ⟨1, "g", "description", NpFloat.val 1⟩),
         (NpFloat.val (4 / 5), ties 1, ⟨4, "g", "description", NpFloat.val (4 / 5)⟩),
         (NpFloat.val (3 / 5), ties 2, ⟨3, "g", "description", NpFloat.val (3 / 5)⟩),
         (NpFloat.val (5 / 13), ties 3, ⟨5, "g", "description", NpFloat.val (5 / 13)⟩)] =
        [(NpFloat.val 1, ties 0, ⟨1, "g", "description", NpFloat.val 1⟩),
         (NpFloat.val (4 / 5), ties 1, ⟨4, "g", "description", NpFloat.val (4 / 5)⟩),
         (NpFloat.val (3 / 5), ties 2, ⟨3, "g", "description", NpFloat.val (3 / 5)⟩),
         (NpFloat.val (5 / 13), ties 3, ⟨5, "g", "description", NpFloat.val (5 / 13)⟩),
         (NpFloat.val 0, ties 4, ⟨2, "g", "description", NpFloat.val 0⟩)] := by
      rw [List.orderedInsert, if_neg (not_entryGe_of_lt (by norm_num)),
        List.orderedInsert, if_neg (not_entryGe_of_lt (by norm_num)),
        List.orderedInsert, if_neg (not_entryGe_of_lt (by norm_num)),
        List.orderedInsert, if_neg (not_entryGe_of_lt (by norm_num))]
      rfl
    have hsearch : search c8_db c8_q "description" 5 ties =
        sort_and_strip (search_desc_stage c8_db c8_q 5 ties ([], 0)).1 := by
      simp [search]
    rw [hsearch, hstage]
    unfold sort_and_strip
    simp only [List.insertionSort, List.orderedInsert_nil, g2, g3, g4, g5]
    rfl
  · norm_num [index_search, index_search_merged, knn_matches, exactIndex, c8_stored,
      c8_db, c8_q, c8_v1, c8_v2, c8_v3, c8_v4, c8_v5, np_dot, matchGe, distLe]
